import Mathlib

/-!
Verification development for the comva media recompression tool
(`src/main.rs`).  The file gives a shallow embedding of the program's data
model and operations: file paths with Rust `std::path` extension semantics,
an abstract filesystem, the directory indexer, the per-file compression
orchestrator `compress_file`, the ffmpeg adapter `compress_ffmpeg`, and an
operational model of the mpsc-based thread pool.  Theorems about the claims
follow the definitions.
-/

/-! ## File names and paths

A file name is modelled as the list of its dot-separated segments
(`"a.mp3.tmp"` is `["a", "mp3", "tmp"]`).  This makes Rust's
`Path::extension` (the part after the last dot, with the hidden-file
exception) and `Path::set_extension` directly expressible. -/

/-- Splits a list of characters at every dot, mirroring how a file-name
string decomposes into dot-separated segments.  The result is never empty. -/
def splitCharList : List Char → List (List Char)
  | [] => [[]]
  | c :: cs =>
    if c = '.' then [] :: splitCharList cs
    else
      match splitCharList cs with
      | [] => [[c]]
      | g :: gs => (c :: g) :: gs

/-- Dot-separated segments of a string. -/
def splitDots (s : String) : List String :=
  (splitCharList s.data).map (fun cs => String.mk cs)

/-- Rust `std::path::Path::extension` on the dot-segments of a file name:
`some` of the last segment when the name has at least two segments, except
for hidden files (exactly two segments with an empty first one, such as
`".gitignore"`), which have no extension. -/
def extSegs (name : List String) : Option String :=
  if name.length ≤ 1 then none
  else if name.length = 2 ∧ name.head? = some "" then none
  else name.getLast?

/-- Rust `std::path::Path::file_stem` on dot-segments: everything before the
extension when there is one, the whole name otherwise. -/
def stemSegs (name : List String) : List String :=
  if (extSegs name).isSome then name.dropLast else name

/-- A filesystem path: the components of the parent directory plus the
dot-segments of the final file name. -/
structure FPath where
  dir : List String
  name : List String
deriving DecidableEq, Repr

/-- Rust `Path::extension` for a path. -/
def FPath.extension (p : FPath) : Option String := extSegs p.name

/-- Rust `Path::with_extension` / `Path::set_extension`: replace the current
extension (if any) by `e`; an empty `e` just drops the extension. -/
def FPath.with_extension (p : FPath) (e : String) : FPath :=
  ⟨p.dir, stemSegs p.name ++ (if e = "" then [] else splitDots e)⟩

/-- Rendering of a path to a string (Rust `to_string_lossy`). -/
def renderPath (p : FPath) : String :=
  String.intercalate "/" (p.dir ++ [String.intercalate "." p.name])

/-- Rust `str::to_lowercase`: lowercase every character. -/
def lowerString (s : String) : String := String.mk (s.data.map Char.toLower)

/-! ## Abstract filesystem

A filesystem state maps each path to the contents of the file stored there
(`none` when no file exists at the path).  File contents are abstracted to
a natural number; all the orchestrator's invariants are about where contents
travel, not what they are. -/

/-- Filesystem state: contents (abstracted to `Nat`) stored at each path. -/
def FS : Type := FPath → Option Nat

/-- Writing a file (`fs::write`, or the codec producing its output). -/
def fsWrite (fs : FS) (p : FPath) (d : Nat) : FS :=
  fun q => if q = p then some d else fs q

/-- Deleting a file (`fs::remove_file`). -/
def fsRemove (fs : FS) (p : FPath) : FS :=
  fun q => if q = p then none else fs q

/-- Renaming a file (`fs::rename`): the contents move from `src` to `dst`. -/
def fsRename (fs : FS) (src dst : FPath) : FS :=
  fun q => if q = dst then fs src else if q = src then none else fs q

/-! ## Data model (`main.rs` lines 13-47, 93-97) -/

/-- Type category of media (`main.rs` line 42-47).  The derived Rust `Ord`
orders constructors by declaration: `Image < Audio < Video`. -/
inductive MediaType
  | Image
  | Audio
  | Video
deriving DecidableEq, Repr

/-- Rank realising the derived `Ord` on `MediaType` (declaration order). -/
def mtRank : MediaType → Nat
  | .Image => 0
  | .Audio => 1
  | .Video => 2

/-- Boolean comparison used to sort the index by media type. -/
def mtLe (a b : MediaType) : Bool := Nat.ble (mtRank a) (mtRank b)

/-- Command-line options (`main.rs` lines 13-39).  `image_ext`/`audio_ext`/
`video_ext` are `Option (Option String)`: `none` means the media type is not
compressed at all, `some none` means compress keeping the original
extension, `some (some e)` means convert to extension `e`. -/
structure Options where
  image_ext : Option (Option String)
  audio_ext : Option (Option String)
  video_ext : Option (Option String)
  keep_files : Bool
  quality : Option Nat
  threads : Nat
deriving DecidableEq, Repr

/-- An index entry (`main.rs` lines 93-97). -/
structure MediaIndex where
  path : FPath
  media_type : MediaType
deriving DecidableEq, Repr

/-! ## Directory indexer (`main.rs` lines 99-130)

The directory tree visible to `fs::read_dir` is modelled as an in-memory
tree; the model covers the successful walk (a read error makes the whole
run fail before any compression starts and is outside these claims). -/

/-- One entry of a directory: a file (given by the dot-segments of its
name) or a subdirectory with its own entries, in `read_dir` order. -/
inductive DirEntry
  | file (fname : List String)
  | dir (dname : String) (entries : List DirEntry)

/-- The extension table built in `main` (`main.rs` lines 53-74). -/
def extensionTable : List (String × MediaType) :=
  [("gif", .Image), ("jpg", .Image), ("jpeg", .Image), ("png", .Image),
   ("bmp", .Image), ("webp", .Image), ("avif", .Image),
   ("mp4", .Video), ("avi", .Video), ("mov", .Video), ("flv", .Video),
   ("mkv", .Video),
   ("mp3", .Audio), ("wav", .Audio), ("ogg", .Audio), ("flac", .Audio),
   ("opus", .Audio), ("m4a", .Audio), ("webm", .Audio)]

/-- Recursive walk (`index_files`, `main.rs` lines 106-130): files whose
lowercased extension is in the table are collected with their media type;
subdirectories are walked recursively in place. -/
def index_files (dirPath : List String) (depth : Nat)
    (extensions : List (String × MediaType)) : List DirEntry → List MediaIndex
  | [] => []
  | .file fname :: rest =>
    (match extSegs fname with
     | some ext =>
       match extensions.lookup (lowerString ext) with
       | some media_type => [⟨⟨dirPath, fname⟩, media_type⟩]
       | none => []
     | none => []) ++ index_files dirPath depth extensions rest
  | .dir dname entries :: rest =>
    index_files (dirPath ++ [dname]) (depth + 1) extensions entries
      ++ index_files dirPath depth extensions rest

/-- Indexing (`index`, `main.rs` lines 99-104): walk, then stable-sort by
media type (`sort_by` on the derived `Ord`). -/
def index (dirPath : List String) (entries : List DirEntry)
    (extensions : List (String × MediaType)) : List MediaIndex :=
  (index_files dirPath 0 extensions entries).mergeSort
    (fun a b => mtLe a.media_type b.media_type)

/-- All files of the tree, by recursive descent, ignoring extensions.  This
follows the specification's words for the indexer contract and is compared
against `index_files` (which is translated from the source). -/
def treeFiles (dirPath : List String) : List DirEntry → List FPath
  | [] => []
  | .file fname :: rest => ⟨dirPath, fname⟩ :: treeFiles dirPath rest
  | .dir dname entries :: rest =>
    treeFiles (dirPath ++ [dname]) entries ++ treeFiles dirPath rest

/-! ## Compression orchestrator (`compress_file`, `main.rs` lines 224-280)

The two codec adapters are external collaborators with a success/failure
outcome; inside the orchestrator model their invocation is a single event
whose outcome, the produced contents, and the diagnostic text come from the
environment `FsEnv`.  The environment also says whether each of the three
fallible filesystem mutations (`fs::rename` aside, `fs::remove_file`,
`fs::rename` to backup) succeeds, modelling OS-level failure of the
syscall; a rename or removal additionally fails when its source path holds
no file. -/

/-- Environment of one job: whether each filesystem mutation succeeds at
the OS level, and the outcome of the opaque codec invocation. -/
structure FsEnv where
  renameAsideOk : Bool
  removeOk : Bool
  renameBackupOk : Bool
  codecOk : Bool
  codecOut : Nat
  codecErr : String
deriving DecidableEq, Repr

/-- Observable events of one `compress_file` job, in order. -/
inductive Ev
  | renamedAside (src dst : FPath)
  | skippedExisting (src : FPath)
  | codecCall (mt : MediaType) (input output : FPath) (ext : String)
  | removedInput (p : FPath)
  | renamedToBackup (src dst : FPath)
  | reportedFailure (input : FPath) (msg : String)
deriving DecidableEq, Repr

/-- Outcome of one `compress_file` job.  `panicked` models a Rust
`expect`/`unwrap` panic (which aborts the worker and, through the pool's
join, the whole run), as opposed to `failed`, the per-file recoverable
error that is only printed. -/
inductive Outcome
  | noop
  | skipped
  | success
  | failed (msg : String)
  | panicked (msg : String)
deriving DecidableEq, Repr

/-- Result of one job: final filesystem, events in order, and outcome. -/
structure JobResult where
  fs : FS
  events : List Ev
  outcome : Outcome

/-- Selection of the per-media-type format flag (`main.rs` lines 225-229). -/
def formatFlag (media_type : MediaType) (options : Options) : Option (Option String) :=
  match media_type with
  | .Image => options.image_ext
  | .Audio => options.audio_ext
  | .Video => options.video_ext

/-- Effective output extension (`main.rs` lines 231-238): the configured
override verbatim if given, otherwise the source extension lowercased. -/
def effectiveOutputExt (ext_option : Option String) (source_ext : String) : String :=
  ext_option.getD (lowerString source_ext)

/-- Tail of `compress_file` after the in-place rename decision (`main.rs`
lines 254-278): the output-exists check, the codec invocation, and the
retention policy.  `fs` is the state after the possible rename aside and
`evs` the events so far. -/
def compress_file_run (env : FsEnv) (media_type : MediaType)
    (source_path input_path output_path : FPath) (output_ext : String)
    (overwritten : Bool) (keep_files : Bool) (fs : FS) (evs : List Ev) : JobResult :=
  if (fs output_path).isSome then
    ⟨fs, evs ++ [.skippedExisting source_path], .skipped⟩
  else
    let cev := Ev.codecCall media_type input_path output_path output_ext
    if env.codecOk then
      let fs2 := fsWrite fs output_path env.codecOut
      if !keep_files then
        if env.removeOk && (fs2 input_path).isSome then
          ⟨fsRemove fs2 input_path, evs ++ [cev, .removedInput input_path], .success⟩
        else
          ⟨fs2, evs ++ [cev], .panicked "Failed to remove file"⟩
      else if overwritten then
        let backup_path := input_path.with_extension "backup"
        if env.renameBackupOk && (fs2 input_path).isSome then
          ⟨fsRename fs2 input_path backup_path,
            evs ++ [cev, .renamedToBackup input_path backup_path], .success⟩
        else
          ⟨fs2, evs ++ [cev], .panicked "Failed to rename input to backup."⟩
      else
        ⟨fs2, evs ++ [cev], .success⟩
    else
      ⟨fs, evs ++ [cev, .reportedFailure input_path env.codecErr], .failed env.codecErr⟩

/-- One compression job (`compress_file`, `main.rs` lines 224-280).  Note
that the source uses `unwrap_or`, whose argument is evaluated eagerly, so
`source_path.extension().unwrap()` runs whenever the format flag is set,
even with an override; and that the in-place rename aside happens before
the output-exists check. -/
def compress_file (env : FsEnv) (media_type : MediaType) (source_path : FPath)
    (options : Options) (fs : FS) : JobResult :=
  match formatFlag media_type options with
  | none => ⟨fs, [], .noop⟩
  | some ext_option =>
    match source_path.extension with
    | none => ⟨fs, [], .panicked "called Option::unwrap on a None value"⟩
    | some source_ext_raw =>
      let output_ext := effectiveOutputExt ext_option source_ext_raw
      let output_path := source_path.with_extension output_ext
      if source_path = output_path then
        let input_path := source_path.with_extension (source_ext_raw ++ ".tmp")
        if env.renameAsideOk && (fs source_path).isSome then
          compress_file_run env media_type source_path input_path output_path
            output_ext true options.keep_files
            (fsRename fs source_path input_path) [.renamedAside source_path input_path]
        else
          ⟨fs, [], .panicked "Failed to rename input path."⟩
      else
        compress_file_run env media_type source_path source_path output_path
          output_ext false options.keep_files fs []

/-! ## Audio/video adapter (`compress_ffmpeg`, `main.rs` lines 300-345) -/

/-- The static per-extension encoder flags (`main.rs` lines 306-319). -/
def ffmpeg_settings : List (String × List String) :=
  [("mp3", ["-qscale:a", "2"]),
   ("flac", ["-compression_level", "12"]),
   ("mp4", ["-vcodec", "libx265", "-crf", "28"]),
   ("mkv", ["-vcodec", "libx265", "-crf", "28"]),
   ("mov", ["-vcodec", "libx265", "-crf", "28"]),
   ("avi", ["-vcodec", "libx265", "-crf", "28"])]

/-- Captured result of running the external tool: exit code (`none` when
the process was terminated by a signal) plus captured output streams. -/
structure ProcOutput where
  exitCode : Option Nat
  stdout : String
  stderr : String
deriving DecidableEq, Repr

/-- Rust `ExitStatus::success`: the exit code exists and is zero. -/
def ProcOutput.success (o : ProcOutput) : Bool := o.exitCode == some 0

/-- Argument list passed to the external tool (`main.rs` lines 326-331):
`-i <input> <output>` then the per-extension flags then `-y`. -/
def ffmpegArgs (input_str output_str output_ext : String) : List String :=
  ["-i", input_str, output_str]
    ++ ((ffmpeg_settings.lookup output_ext).getD []) ++ ["-y"]

/-- The audio/video adapter (`compress_ffmpeg`, `main.rs` lines 300-345).
`runProc` is the external tool: it receives the argument list and returns
the captured output, or `none` when the process could not be spawned. -/
def compress_ffmpeg (runProc : List String → Option ProcOutput)
    (input_path output_path : FPath) (output_ext : String) : Except String Unit :=
  let input_str := renderPath input_path
  let output_str := renderPath output_path
  match runProc (ffmpegArgs input_str output_str output_ext) with
  | none => .error "Failed to run command"
  | some out =>
    if out.success then .ok ()
    else
      .error ("Failed FFMPEG execution!\nStdErr: " ++ out.stderr
        ++ "\nStdOut: " ++ out.stdout)

/-! ## Process exit (`main`, `main.rs` lines 52-91, and `compress`,
lines 132-145) -/

/-- Return value of `compress` (`main.rs` line 144): it always returns
`Ok(())`; job outcomes are observed only through side effects. -/
def compressReturn : Except String Unit := .ok ()

/-- Result of `main` (`main.rs` lines 52-91): an error can only come from
path canonicalization/indexing; afterwards `compress` is consulted (always
`Ok`) and `main` returns `Ok(())`. -/
def mainResult (indexResult : Except String (List MediaIndex)) : Except String Unit :=
  match indexResult with
  | .error e => .error e
  | .ok _ =>
    match compressReturn with
    | .error e => .error e
    | .ok _ => .ok ()

/-- Process exit status of a Rust `main () -> Result`: 0 on `Ok`. -/
def processExitCode (r : Except String Unit) : Nat :=
  match r with
  | .ok _ => 0
  | .error _ => 1

/-! ## Worker pool (`ThreadPool`, `main.rs` lines 147-222)

The mpsc channel is a FIFO queue of messages; the receiver is shared behind
a mutex, so exactly one worker takes each message, from the front.  A
worker that takes `NewJob j` runs the job; one that takes `Terminate`
breaks out of its loop and never dequeues again (`main.rs` lines 203-222).
Jobs are identified by the natural number of their submission order.  A
state records the channel contents, which workers are still alive, and the
executions so far as (worker, job) pairs in dequeue order.  `PoolStep` is
one worker taking one message; the pool's `Drop` (lines 185-197) first
enqueues one `Terminate` per worker and then joins, so it returns only from
states where every worker has exited. -/

/-- A message on the channel (`main.rs` lines 155-158). -/
inductive Msg
  | newJob (j : Nat)
  | terminate
deriving DecidableEq, Repr

/-- State of the pool: channel queue, liveness of each worker, and the
(worker, job) executions so far in dequeue order. -/
structure PoolState where
  queue : List Msg
  alive : List Bool
  executed : List (Nat × Nat)
deriving DecidableEq, Repr

/-- The pool right after `ThreadPool::new(size)` spawned its workers:
empty channel, `size` live workers, nothing executed. -/
def mkPool (size : Nat) : PoolState := ⟨[], List.replicate size true, []⟩

/-- `ThreadPool::new` (`main.rs` lines 161-173): `assert!(size > 0)` panics
on zero (modelled as the error case), otherwise `size` workers are spawned. -/
def ThreadPool.new (size : Nat) : Except String PoolState :=
  if 0 < size then .ok (mkPool size) else .error "assertion failed: size > 0"

/-- `ThreadPool::execute` (`main.rs` lines 175-182): enqueue a job message. -/
def PoolState.execute (s : PoolState) (j : Nat) : PoolState :=
  { s with queue := s.queue ++ [Msg.newJob j] }

/-- First half of `ThreadPool::drop` (`main.rs` lines 187-189): one
`Terminate` message per worker is enqueued. -/
def PoolState.dropSignal (s : PoolState) : PoolState :=
  { s with queue := s.queue ++ List.replicate s.alive.length Msg.terminate }

/-- Submitting jobs `0..k` in order, as `compress` does (lines 136-143). -/
def submitAll (s : PoolState) (k : Nat) : PoolState :=
  (List.range k).foldl PoolState.execute s

/-- One step of the pool: a live worker `w` takes the message at the front
of the channel; a job message is executed by `w`, a terminate message
kills `w` (`Worker::new`, `main.rs` lines 203-222). -/
inductive PoolStep : PoolState → PoolState → Prop
  | job (s : PoolState) (w j : Nat) (rest : List Msg)
      (hw : s.alive.get? w = some true) (hq : s.queue = Msg.newJob j :: rest) :
      PoolStep s ⟨rest, s.alive, s.executed ++ [(w, j)]⟩
  | term (s : PoolState) (w : Nat) (rest : List Msg)
      (hw : s.alive.get? w = some true) (hq : s.queue = Msg.terminate :: rest) :
      PoolStep s ⟨rest, s.alive.set w false, s.executed⟩

/-- Reachability under arbitrary interleaving of worker steps. -/
def PoolReaches : PoolState → PoolState → Prop :=
  Relation.ReflTransGen PoolStep

/-- All workers have exited; only such states let the join in
`ThreadPool::drop` (lines 191-196) return. -/
def PoolState.allDead (s : PoolState) : Prop := ∀ b ∈ s.alive, b = false

/-- Job identifiers carried by the job messages of a list, in order. -/
def jobsOf (l : List Msg) : List Nat :=
  l.filterMap (fun m => match m with | .newJob j => some j | .terminate => none)

/-- Number of terminate messages in a list. -/
def termCount (l : List Msg) : Nat := l.countP (fun m => m == Msg.terminate)

/-- Number of dead workers. -/
def deadCount (a : List Bool) : Nat := a.countP (fun b => b == false)

/-- Inductive invariant of the pool: the consumed prefix `pre` of the
initial queue accounts exactly for the executions and the dead workers. -/
def PoolInv (initq : List Msg) (N : Nat) (s : PoolState) : Prop :=
  ∃ pre, initq = pre ++ s.queue
    ∧ s.executed.map Prod.snd = jobsOf pre
    ∧ deadCount s.alive = termCount pre
    ∧ s.alive.length = N

/-! ## Helper lemmas on names and paths -/

theorem splitCharList_no_dot (l : List Char) (h : '.' ∉ l) :
    splitCharList l = [l] := by
  induction l with
  | nil => rfl
  | cons c cs ih =>
    have hc : c ≠ '.' := fun hc => h (hc ▸ List.mem_cons_self c cs)
    have hcs : '.' ∉ cs := fun hm => h (List.mem_cons_of_mem c hm)
    simp only [splitCharList, if_neg hc, ih hcs]

theorem splitCharList_append_dot (l r : List Char) (h : '.' ∉ l) :
    splitCharList (l ++ '.' :: r) = l :: splitCharList r := by
  induction l with
  | nil => simp [splitCharList]
  | cons c cs ih =>
    have hc : c ≠ '.' := fun hc => h (hc ▸ List.mem_cons_self c cs)
    have hcs : '.' ∉ cs := fun hm => h (List.mem_cons_of_mem c hm)
    simp only [List.cons_append, splitCharList, List.append_eq, if_neg hc, ih hcs]

theorem splitDots_no_dot (s : String) (h : '.' ∉ s.data) : splitDots s = [s] := by
  simp only [splitDots, splitCharList_no_dot s.data h, List.map_cons, List.map_nil]

theorem splitDots_append_tmp (e : String) (h : '.' ∉ e.data) :
    splitDots (e ++ ".tmp") = [e, "tmp"] := by
  have hdata : (e ++ ".tmp").data = e.data ++ '.' :: ['t', 'm', 'p'] := by
    rw [String.data_append]
  simp only [splitDots, hdata, splitCharList_append_dot e.data _ h]
  have : splitCharList ['t', 'm', 'p'] = [['t', 'm', 'p']] := by decide
  simp only [this, List.map_cons, List.map_nil]

theorem append_tmp_ne_empty (e : String) : e ++ ".tmp" ≠ "" := by
  intro hc
  have : (e ++ ".tmp").data = [] := by rw [hc]
  rw [String.data_append] at this
  simp at this

theorem extSegs_append_pair (ns : List String) (x y : String) (h : ns ≠ []) :
    extSegs (ns ++ [x, y]) = some y := by
  have hlen : (ns ++ [x, y]).length = ns.length + 2 := by simp
  have hns : 1 ≤ ns.length := List.length_pos.mpr h
  rw [extSegs, if_neg (by omega), if_neg (by omega)]
  have : ns ++ [x, y] = (ns ++ [x]) ++ [y] := by simp
  rw [this, List.getLast?_concat]

theorem extSegs_eq_some_decomp (n : List String) (e : String)
    (h : extSegs n = some e) : ∃ ns, n = ns ++ [e] ∧ ns ≠ [] := by
  rw [extSegs] at h
  by_cases h1 : n.length ≤ 1
  · rw [if_pos h1] at h; exact absurd h (by simp)
  · rw [if_neg h1] at h
    by_cases h2 : n.length = 2 ∧ n.head? = some ""
    · rw [if_pos h2] at h; exact absurd h (by simp)
    · rw [if_neg h2] at h
      have hne : n ≠ [] := by
        intro hc; rw [hc] at h1; simp at h1
      refine ⟨n.dropLast, ?_, ?_⟩
      · have hlast : n.getLast hne = e := by
          have := List.getLast?_eq_getLast n hne
          rw [this] at h; exact Option.some.inj h
        rw [← hlast]; exact (List.dropLast_append_getLast hne).symm
      · intro hc
        have : n.length - 1 = 0 := by rw [← List.length_dropLast, hc]; rfl
        omega

theorem stemSegs_of_extSegs_some (n : List String) (e : String)
    (h : extSegs n = some e) : stemSegs n = n.dropLast := by
  rw [stemSegs, if_pos (by rw [h]; rfl)]

theorem tmp_path_decomp (src : FPath) (e : String)
    (he : src.extension = some e) (hdot : '.' ∉ e.data) :
    ∃ ns, ns ≠ [] ∧ src.name = ns ++ [e]
      ∧ src.with_extension (e ++ ".tmp") = ⟨src.dir, ns ++ [e, "tmp"]⟩
      ∧ (src.with_extension (e ++ ".tmp")).with_extension "backup"
          = ⟨src.dir, ns ++ [e, "backup"]⟩ := by
  obtain ⟨ns, hname, hns⟩ := extSegs_eq_some_decomp src.name e he
  have htmp : src.with_extension (e ++ ".tmp") = ⟨src.dir, ns ++ [e, "tmp"]⟩ := by
    rw [FPath.with_extension, if_neg (append_tmp_ne_empty e),
      stemSegs_of_extSegs_some src.name e he, splitDots_append_tmp e hdot, hname,
      List.dropLast_concat]
  refine ⟨ns, hns, hname, htmp, ?_⟩
  rw [htmp, FPath.with_extension]
  have hb : splitDots "backup" = ["backup"] := by decide
  have hext : extSegs (ns ++ [e, "tmp"]) = some "tmp" := extSegs_append_pair ns e "tmp" hns
  have hstem : stemSegs (ns ++ [e, "tmp"]) = ns ++ [e] := by
    rw [stemSegs, if_pos (by rw [hext]; rfl)]
    have h2 : ns ++ [e, "tmp"] = (ns ++ [e]) ++ ["tmp"] := by simp
    rw [h2, List.dropLast_concat]
  simp only [hstem, hb, if_neg (by decide : ¬("backup" : String) = "")]
  simp

/-- Claim C1: for an indexed file whose computed output path equals its input
path (in-place conversion), the source is first renamed to the sibling path
with `.tmp` appended to the original extension before the codec runs, and on
success either `keep_files` is false and the renamed original is deleted
while the new output sits at the original path, or `keep_files` is true and
a `.backup` sibling carrying the original contents survives alongside the
new output. -/
theorem compress_file_in_place_preserves (env : FsEnv) (mt : MediaType)
    (src : FPath) (opts : Options) (fs : FS) (ext_option : Option String)
    (e : String) (d : Nat)
    (hf : formatFlag mt opts = some ext_option)
    (he : src.extension = some e)
    (hdot : '.' ∉ e.data)
    (hip : src.with_extension (effectiveOutputExt ext_option e) = src)
    (hsrc : fs src = some d)
    (h1 : env.renameAsideOk = true) (h2 : env.codecOk = true)
    (h3 : env.removeOk = true) (h4 : env.renameBackupOk = true) :
    let tmp := src.with_extension (e ++ ".tmp")
    let r := compress_file env mt src opts fs
    r.outcome = .success
      ∧ r.events.take 2
          = [.renamedAside src tmp, .codecCall mt tmp src (effectiveOutputExt ext_option e)]
      ∧ (opts.keep_files = false →
          r.fs src = some env.codecOut ∧ r.fs tmp = none
            ∧ r.events = [.renamedAside src tmp,
                .codecCall mt tmp src (effectiveOutputExt ext_option e), .removedInput tmp])
      ∧ (opts.keep_files = true →
          r.fs src = some env.codecOut
            ∧ r.fs (tmp.with_extension "backup") = some d
            ∧ tmp.with_extension "backup" ≠ src
            ∧ r.events = [.renamedAside src tmp,
                .codecCall mt tmp src (effectiveOutputExt ext_option e),
                .renamedToBackup tmp (tmp.with_extension "backup")]) := by
  intro tmp r
  obtain ⟨ns, hns, hname, htmp, hbackup⟩ := tmp_path_decomp src e he hdot
  have htmp_ne : tmp ≠ src := by
    show src.with_extension (e ++ ".tmp") ≠ src
    rw [htmp]
    intro hc
    have hlen : (ns ++ [e, "tmp"]).length = src.name.length :=
      congrArg List.length (congrArg FPath.name hc)
    rw [hname] at hlen
    simp at hlen
  have hback_ne_src : tmp.with_extension "backup" ≠ src := by
    show (src.with_extension (e ++ ".tmp")).with_extension "backup" ≠ src
    rw [hbackup]
    intro hc
    have hlen : (ns ++ [e, "backup"]).length = src.name.length :=
      congrArg List.length (congrArg FPath.name hc)
    rw [hname] at hlen
    simp at hlen
  have hfs1_src : (fsRename fs src tmp) src = none := by
    rw [fsRename, if_neg (Ne.symm htmp_ne), if_pos rfl]
  have hfs1_tmp : (fsRename fs src tmp) tmp = some d := by
    rw [fsRename, if_pos rfl, hsrc]
  have hr : r = compress_file_run env mt src tmp src
      (effectiveOutputExt ext_option e) true opts.keep_files
      (fsRename fs src tmp) [.renamedAside src tmp] := by
    show compress_file env mt src opts fs = _
    rw [compress_file, hf, he]
    simp only [hip, if_pos rfl, h1, hsrc, Option.isSome_some, Bool.and_self, if_pos]
  rw [hr, compress_file_run]
  rw [if_neg (by rw [hfs1_src]; simp), if_pos h2]
  set fs2 := fsWrite (fsRename fs src tmp) src env.codecOut with hfs2
  have hfs2_tmp : fs2 tmp = some d := by
    rw [hfs2, fsWrite, if_neg htmp_ne, hfs1_tmp]
  have hfs2_src : fs2 src = some env.codecOut := by
    rw [hfs2, fsWrite, if_pos rfl]
  have hcond : (env.removeOk && (fs2 tmp).isSome) = true := by
    rw [h3, hfs2_tmp]; rfl
  have hcond2 : (env.renameBackupOk && (fs2 tmp).isSome) = true := by
    rw [h4, hfs2_tmp]; rfl
  cases hk : opts.keep_files with
  | false =>
    rw [show (!false) = true from rfl, if_pos rfl, if_pos hcond]
    refine ⟨rfl, rfl, fun _ => ⟨?_, ?_, rfl⟩, fun hc => by simp at hc⟩
    · show fsRemove fs2 tmp src = some env.codecOut
      rw [fsRemove, if_neg (Ne.symm htmp_ne), hfs2_src]
    · show fsRemove fs2 tmp tmp = none
      rw [fsRemove, if_pos rfl]
  | true =>
    rw [show (!true) = false from rfl, if_neg (by simp), if_pos rfl, if_pos hcond2]
    refine ⟨rfl, rfl, fun hc => by simp at hc, fun _ => ⟨?_, ?_, hback_ne_src, rfl⟩⟩
    · show fsRename fs2 tmp (tmp.with_extension "backup") src = some env.codecOut
      rw [fsRename, if_neg (Ne.symm hback_ne_src), if_neg (Ne.symm htmp_ne), hfs2_src]
    · show fsRename fs2 tmp (tmp.with_extension "backup") (tmp.with_extension "backup")
        = some d
      rw [fsRename, if_pos rfl, hfs2_tmp]

/-- Witness for C1: a concrete in-place job (`b.mp3`, audio compressed with
the extension kept, `keep_files = false`) renames aside, compresses, deletes
the temporary, and leaves the new contents at the original path. -/
theorem compress_file_in_place_preserves_witness :
    let env : FsEnv := ⟨true, true, true, true, 77, "boom"⟩
    let opts : Options := ⟨none, some none, none, false, none, 8⟩
    let src : FPath := ⟨[], ["b", "mp3"]⟩
    let fs : FS := fun p => if p = src then some 5 else none
    let tmp := src.with_extension ("mp3" ++ ".tmp")
    let r := compress_file env .Audio src opts fs
    r.outcome = .success
      ∧ r.events.take 2 = [.renamedAside src tmp, .codecCall .Audio tmp src "mp3"]
      ∧ r.fs src = some 77 ∧ r.fs tmp = none := by
  intro env opts src fs tmp r
  have h := compress_file_in_place_preserves env .Audio src opts fs none "mp3" 5
    rfl rfl (by decide) (by decide) (by decide) rfl rfl rfl rfl
  obtain ⟨h1, h2, h3, -⟩ := h
  obtain ⟨ha, hb, -⟩ := h3 rfl
  exact ⟨h1, h2, ha, hb⟩

/-- Claim C5: a job whose computed output path differs from its input path
and already exists ends as a skip: the skip is reported, no codec call
happens, and the filesystem — in particular the pre-existing output and the
input — is left unchanged. -/
theorem compress_file_skips_existing_output (env : FsEnv) (mt : MediaType)
    (src : FPath) (opts : Options) (fs : FS) (ext_option : Option String) (e : String)
    (hf : formatFlag mt opts = some ext_option)
    (he : src.extension = some e)
    (hne : src ≠ src.with_extension (effectiveOutputExt ext_option e))
    (hex : (fs (src.with_extension (effectiveOutputExt ext_option e))).isSome) :
    let r := compress_file env mt src opts fs
    r.outcome = .skipped ∧ r.events = [.skippedExisting src] ∧ r.fs = fs
      ∧ (∀ m i o x, Ev.codecCall m i o x ∉ r.events) := by
  intro r
  have hr : r = compress_file_run env mt src src
      (src.with_extension (effectiveOutputExt ext_option e))
      (effectiveOutputExt ext_option e) false opts.keep_files fs [] := by
    show compress_file env mt src opts fs = _
    rw [compress_file, hf, he]
    simp only [if_neg hne]
  rw [hr, compress_file_run, if_pos hex]
  refine ⟨rfl, rfl, rfl, ?_⟩
  intro m i o x hmem
  simp at hmem

/-- Witness for C5: `photo.jpg` converted to `png` while `photo.png` already
exists is skipped with both files untouched. -/
theorem compress_file_skips_existing_output_witness :
    let env : FsEnv := ⟨true, true, true, true, 77, "boom"⟩
    let opts : Options := ⟨some (some "png"), none, none, false, none, 8⟩
    let src : FPath := ⟨[], ["photo", "jpg"]⟩
    let out : FPath := ⟨[], ["photo", "png"]⟩
    let fs : FS := fun p => if p = src then some 5 else if p = out then some 9 else none
    let r := compress_file env .Image src opts fs
    r.outcome = .skipped ∧ r.events = [.skippedExisting src] ∧ r.fs = fs := by
  intro env opts src out fs r
  have h := compress_file_skips_existing_output env .Image src opts fs (some "png") "jpg"
    rfl rfl (by decide) (by decide)
  exact ⟨h.1, h.2.1, h.2.2.1⟩

/-- Claim C6: when the codec invocation fails, the failure is reported with
the (possibly renamed-aside) input path and the full diagnostic text, the
`.tmp` input of an in-place job stays on disk unrestored, nothing is
deleted, the job ends in the recoverable `failed` outcome rather than
propagating, and the process exit status stays 0 whenever indexing
succeeded. -/
theorem compress_file_codec_failure_contained :
    (∀ (env : FsEnv) (mt : MediaType) (src : FPath) (opts : Options) (fs : FS)
        (ext_option : Option String) (e : String),
      formatFlag mt opts = some ext_option →
      src.extension = some e →
      env.codecOk = false →
      src ≠ src.with_extension (effectiveOutputExt ext_option e) →
      fs (src.with_extension (effectiveOutputExt ext_option e)) = none →
      let out := src.with_extension (effectiveOutputExt ext_option e)
      let r := compress_file env mt src opts fs
      r.outcome = .failed env.codecErr
        ∧ r.events = [.codecCall mt src out (effectiveOutputExt ext_option e),
            .reportedFailure src env.codecErr]
        ∧ r.fs = fs)
    ∧ (∀ (env : FsEnv) (mt : MediaType) (src : FPath) (opts : Options) (fs : FS)
        (ext_option : Option String) (e : String) (d : Nat),
      formatFlag mt opts = some ext_option →
      src.extension = some e →
      '.' ∉ e.data →
      src.with_extension (effectiveOutputExt ext_option e) = src →
      fs src = some d →
      env.renameAsideOk = true →
      env.codecOk = false →
      let tmp := src.with_extension (e ++ ".tmp")
      let r := compress_file env mt src opts fs
      r.outcome = .failed env.codecErr
        ∧ r.events = [.renamedAside src tmp,
            .codecCall mt tmp src (effectiveOutputExt ext_option e),
            .reportedFailure tmp env.codecErr]
        ∧ r.fs tmp = some d ∧ r.fs src = none)
    ∧ (∀ idx : List MediaIndex, processExitCode (mainResult (.ok idx)) = 0) := by
  refine ⟨?_, ?_, fun _ => rfl⟩
  · intro env mt src opts fs ext_option e hf he hcodec hne hnex out r
    have hr : r = compress_file_run env mt src src out
        (effectiveOutputExt ext_option e) false opts.keep_files fs [] := by
      show compress_file env mt src opts fs = _
      rw [compress_file, hf, he]
      simp only [if_neg hne]
    rw [hr, compress_file_run, if_neg (by rw [hnex]; simp),
      if_neg (by rw [hcodec]; simp)]
    exact ⟨rfl, rfl, rfl⟩
  · intro env mt src opts fs ext_option e d hf he hdot hip hsrc h1 hcodec tmp r
    obtain ⟨ns, hns, hname, htmp, -⟩ := tmp_path_decomp src e he hdot
    have htmp_ne : tmp ≠ src := by
      show src.with_extension (e ++ ".tmp") ≠ src
      rw [htmp]
      intro hc
      have hlen : (ns ++ [e, "tmp"]).length = src.name.length :=
        congrArg List.length (congrArg FPath.name hc)
      rw [hname] at hlen
      simp at hlen
    have hfs1_src : (fsRename fs src tmp) src = none := by
      rw [fsRename, if_neg (Ne.symm htmp_ne), if_pos rfl]
    have hfs1_tmp : (fsRename fs src tmp) tmp = some d := by
      rw [fsRename, if_pos rfl, hsrc]
    have hr : r = compress_file_run env mt src tmp src
        (effectiveOutputExt ext_option e) true opts.keep_files
        (fsRename fs src tmp) [.renamedAside src tmp] := by
      show compress_file env mt src opts fs = _
      rw [compress_file, hf, he]
      simp only [hip, if_pos rfl, h1, hsrc, Option.isSome_some, Bool.and_self, if_pos]
    rw [hr, compress_file_run, if_neg (by rw [hfs1_src]; simp),
      if_neg (by rw [hcodec]; simp)]
    exact ⟨rfl, rfl, hfs1_tmp, hfs1_src⟩

/-- Claim C7: a failure of any of the three filesystem mutations in the
orchestrator — the rename aside for an in-place overwrite, the deletion of
the (possibly renamed) input after success (stated both for the untouched
source of a non-in-place job and for the renamed-aside `.tmp` input of an
in-place job), or the rename of the temporary input to its backup name —
makes `compress_file` panic (aborting the run), never returning the
per-file recoverable `failed` outcome. -/
theorem compress_file_mutation_failure_panics :
    (∀ (env : FsEnv) (mt : MediaType) (src : FPath) (opts : Options) (fs : FS)
        (ext_option : Option String) (e : String),
      formatFlag mt opts = some ext_option →
      src.extension = some e →
      src.with_extension (effectiveOutputExt ext_option e) = src →
      (env.renameAsideOk && (fs src).isSome) = false →
      let r := compress_file env mt src opts fs
      r.outcome = .panicked "Failed to rename input path."
        ∧ (∀ m, r.outcome ≠ .failed m))
    ∧ (∀ (env : FsEnv) (mt : MediaType) (src : FPath) (opts : Options) (fs : FS)
        (ext_option : Option String) (e : String),
      formatFlag mt opts = some ext_option →
      src.extension = some e →
      src ≠ src.with_extension (effectiveOutputExt ext_option e) →
      fs (src.with_extension (effectiveOutputExt ext_option e)) = none →
      env.codecOk = true →
      opts.keep_files = false →
      (env.removeOk
        && ((fsWrite fs (src.with_extension (effectiveOutputExt ext_option e))
              env.codecOut) src).isSome) = false →
      let r := compress_file env mt src opts fs
      r.outcome = .panicked "Failed to remove file"
        ∧ (∀ m, r.outcome ≠ .failed m))
    ∧ (∀ (env : FsEnv) (mt : MediaType) (src : FPath) (opts : Options) (fs : FS)
        (ext_option : Option String) (e : String) (d : Nat),
      formatFlag mt opts = some ext_option →
      src.extension = some e →
      '.' ∉ e.data →
      src.with_extension (effectiveOutputExt ext_option e) = src →
      fs src = some d →
      env.renameAsideOk = true →
      env.codecOk = true →
      opts.keep_files = false →
      env.removeOk = false →
      let r := compress_file env mt src opts fs
      r.outcome = .panicked "Failed to remove file"
        ∧ (∀ m, r.outcome ≠ .failed m))
    ∧ (∀ (env : FsEnv) (mt : MediaType) (src : FPath) (opts : Options) (fs : FS)
        (ext_option : Option String) (e : String) (d : Nat),
      formatFlag mt opts = some ext_option →
      src.extension = some e →
      '.' ∉ e.data →
      src.with_extension (effectiveOutputExt ext_option e) = src →
      fs src = some d →
      env.renameAsideOk = true →
      env.codecOk = true →
      opts.keep_files = true →
      env.renameBackupOk = false →
      let r := compress_file env mt src opts fs
      r.outcome = .panicked "Failed to rename input to backup."
        ∧ (∀ m, r.outcome ≠ .failed m)) := by
  refine ⟨?_, ?_, ?_, ?_⟩
  · intro env mt src opts fs ext_option e hf he hip hfail r
    have hr : r = ⟨fs, [], .panicked "Failed to rename input path."⟩ := by
      show compress_file env mt src opts fs = _
      rw [compress_file, hf, he]
      simp only [hip, if_pos rfl, hfail]
      rfl
    rw [hr]
    exact ⟨rfl, fun m => by simp⟩
  · intro env mt src opts fs ext_option e hf he hne hnex hcodec hkeep hfail r
    have hr : r = compress_file_run env mt src src
        (src.with_extension (effectiveOutputExt ext_option e))
        (effectiveOutputExt ext_option e) false opts.keep_files fs [] := by
      show compress_file env mt src opts fs = _
      rw [compress_file, hf, he]
      simp only [if_neg hne]
    rw [hr, compress_file_run, if_neg (by rw [hnex]; simp), if_pos hcodec, hkeep]
    rw [show (!false) = true from rfl, if_pos rfl, if_neg (by rw [hfail]; simp)]
    exact ⟨rfl, fun m => by simp⟩
  · intro env mt src opts fs ext_option e d hf he hdot hip hsrc h1 hcodec hkeep hfail r
    obtain ⟨ns, hns, hname, htmp, -⟩ := tmp_path_decomp src e he hdot
    have htmp_ne : src.with_extension (e ++ ".tmp") ≠ src := by
      rw [htmp]
      intro hc
      have hlen : (ns ++ [e, "tmp"]).length = src.name.length :=
        congrArg List.length (congrArg FPath.name hc)
      rw [hname] at hlen
      simp at hlen
    have hfs1_src : (fsRename fs src (src.with_extension (e ++ ".tmp"))) src = none := by
      rw [fsRename, if_neg (Ne.symm htmp_ne), if_pos rfl]
    have hr : r = compress_file_run env mt src (src.with_extension (e ++ ".tmp")) src
        (effectiveOutputExt ext_option e) true opts.keep_files
        (fsRename fs src (src.with_extension (e ++ ".tmp")))
        [.renamedAside src (src.with_extension (e ++ ".tmp"))] := by
      show compress_file env mt src opts fs = _
      rw [compress_file, hf, he]
      simp only [hip, if_pos rfl, h1, hsrc, Option.isSome_some, Bool.and_self, if_pos]
    rw [hr, compress_file_run, if_neg (by rw [hfs1_src]; simp), if_pos hcodec, hkeep]
    rw [show (!false) = true from rfl, if_pos rfl, if_neg (by rw [hfail]; simp)]
    exact ⟨rfl, fun m => by simp⟩
  · intro env mt src opts fs ext_option e d hf he hdot hip hsrc h1 hcodec hkeep hfail r
    obtain ⟨ns, hns, hname, htmp, -⟩ := tmp_path_decomp src e he hdot
    have htmp_ne : src.with_extension (e ++ ".tmp") ≠ src := by
      rw [htmp]
      intro hc
      have hlen : (ns ++ [e, "tmp"]).length = src.name.length :=
        congrArg List.length (congrArg FPath.name hc)
      rw [hname] at hlen
      simp at hlen
    have hfs1_src : (fsRename fs src (src.with_extension (e ++ ".tmp"))) src = none := by
      rw [fsRename, if_neg (Ne.symm htmp_ne), if_pos rfl]
    have hr : r = compress_file_run env mt src (src.with_extension (e ++ ".tmp")) src
        (effectiveOutputExt ext_option e) true opts.keep_files
        (fsRename fs src (src.with_extension (e ++ ".tmp")))
        [.renamedAside src (src.with_extension (e ++ ".tmp"))] := by
      show compress_file env mt src opts fs = _
      rw [compress_file, hf, he]
      simp only [hip, if_pos rfl, h1, hsrc, Option.isSome_some, Bool.and_self, if_pos]
    rw [hr, compress_file_run, if_neg (by rw [hfs1_src]; simp), if_pos hcodec, hkeep]
    rw [show (!true) = false from rfl, if_neg (by simp), if_pos rfl,
      if_neg (by rw [hfail]; simp)]
    exact ⟨rfl, fun m => by simp⟩

/-- Witness for C6: a failing conversion of `photo.jpg` to `png` reports the
failure with the input path and diagnostic text, leaves the filesystem
untouched, and the process exit code stays 0. -/
theorem compress_file_codec_failure_contained_witness :
    let env : FsEnv := ⟨true, true, true, false, 77, "boom"⟩
    let opts : Options := ⟨some (some "png"), none, none, false, none, 8⟩
    let src : FPath := ⟨[], ["photo", "jpg"]⟩
    let fs : FS := fun p => if p = src then some 5 else none
    let r := compress_file env .Image src opts fs
    r.outcome = .failed "boom"
      ∧ r.events = [.codecCall .Image src ⟨[], ["photo", "png"]⟩ "png",
          .reportedFailure src "boom"]
      ∧ r.fs = fs
      ∧ processExitCode (mainResult (.ok [])) = 0 := by
  intro env opts src fs r
  have h := compress_file_codec_failure_contained.1 env .Image src opts fs
    (some "png") "jpg" rfl rfl rfl (by decide) (by decide)
  exact ⟨h.1, h.2.1, h.2.2, compress_file_codec_failure_contained.2.2 []⟩

/-- Witness for C7: concrete jobs in which each of the three mutations
fails — the delete both for an untouched source and for a renamed-aside
`.tmp` input — each ending in the corresponding panic. -/
theorem compress_file_mutation_failure_panics_witness :
    ((compress_file ⟨false, true, true, true, 77, "boom"⟩ .Audio ⟨[], ["b", "mp3"]⟩
        ⟨none, some none, none, false, none, 8⟩ (fun _ => none)).outcome
      = .panicked "Failed to rename input path.")
    ∧ ((compress_file ⟨true, false, true, true, 77, "boom"⟩ .Image ⟨[], ["photo", "jpg"]⟩
        ⟨some (some "png"), none, none, false, none, 8⟩
        (fun p => if p = ⟨[], ["photo", "jpg"]⟩ then some 5 else none)).outcome
      = .panicked "Failed to remove file")
    ∧ ((compress_file ⟨true, false, true, true, 77, "boom"⟩ .Audio ⟨[], ["b", "mp3"]⟩
        ⟨none, some none, none, false, none, 8⟩
        (fun p => if p = ⟨[], ["b", "mp3"]⟩ then some 5 else none)).outcome
      = .panicked "Failed to remove file")
    ∧ ((compress_file ⟨true, true, false, true, 77, "boom"⟩ .Audio ⟨[], ["b", "mp3"]⟩
        ⟨none, some none, none, true, none, 8⟩
        (fun p => if p = ⟨[], ["b", "mp3"]⟩ then some 5 else none)).outcome
      = .panicked "Failed to rename input to backup.") := by
  refine ⟨?_, ?_, ?_, ?_⟩
  · exact (compress_file_mutation_failure_panics.1 ⟨false, true, true, true, 77, "boom"⟩
      .Audio ⟨[], ["b", "mp3"]⟩ ⟨none, some none, none, false, none, 8⟩ (fun _ => none)
      none "mp3" rfl rfl (by decide) (by decide)).1
  · exact (compress_file_mutation_failure_panics.2.1 ⟨true, false, true, true, 77, "boom"⟩
      .Image ⟨[], ["photo", "jpg"]⟩ ⟨some (some "png"), none, none, false, none, 8⟩
      (fun p => if p = ⟨[], ["photo", "jpg"]⟩ then some 5 else none)
      (some "png") "jpg" rfl rfl (by decide) (by decide) rfl rfl (by decide)).1
  · exact (compress_file_mutation_failure_panics.2.2.1 ⟨true, false, true, true, 77, "boom"⟩
      .Audio ⟨[], ["b", "mp3"]⟩ ⟨none, some none, none, false, none, 8⟩
      (fun p => if p = ⟨[], ["b", "mp3"]⟩ then some 5 else none)
      none "mp3" 5 rfl rfl (by decide) (by decide) (by decide) rfl rfl rfl rfl).1
  · exact (compress_file_mutation_failure_panics.2.2.2 ⟨true, true, false, true, 77, "boom"⟩
      .Audio ⟨[], ["b", "mp3"]⟩ ⟨none, some none, none, true, none, 8⟩
      (fun p => if p = ⟨[], ["b", "mp3"]⟩ then some 5 else none)
      none "mp3" 5 rfl rfl (by decide) (by decide) (by decide) rfl rfl rfl rfl).1

theorem codecCall_mem_run (env : FsEnv) (mt : MediaType)
    (sp ip op : FPath) (oext : String) (ow kf : Bool) (fs : FS) (evs : List Ev)
    (m : MediaType) (i o : FPath) (x : String)
    (hmem : Ev.codecCall m i o x ∈ (compress_file_run env mt sp ip op oext ow kf fs evs).events) :
    Ev.codecCall m i o x ∈ evs ∨ (m = mt ∧ i = ip ∧ o = op ∧ x = oext) := by
  rw [compress_file_run] at hmem
  split_ifs at hmem <;> simp at hmem <;> try tauto
  all_goals (split_ifs at hmem <;> simp at hmem <;> tauto)

/-- Counterexample to claim C3 as stated: for `A.JPG` with no override the
effective output extension used for the output path is `jpg`, not the
original extension `JPG` character for character. -/
theorem effective_output_ext_counterexample :
    let src : FPath := ⟨[], ["A", "JPG"]⟩
    let r := compress_file ⟨true, true, true, true, 77, "x"⟩ .Image src
        ⟨some none, none, none, true, none, 8⟩ (fun p => if p = src then some 5 else none)
    src.extension = some "JPG"
      ∧ r.events = [.codecCall .Image src ⟨[], ["A", "jpg"]⟩ "jpg"]
      ∧ "jpg" ≠ "JPG" := by decide

/-- Amended claim C3: the effective output extension equals the configured
override verbatim when one is given, and otherwise equals the source
extension lowercased; every codec invocation of `compress_file` uses
exactly this extension and the output path obtained by substituting it. -/
theorem effective_output_ext_amended :
    (∀ (o : String) (e : String), effectiveOutputExt (some o) e = o)
    ∧ (∀ e : String, effectiveOutputExt none e = lowerString e)
    ∧ (∀ (env : FsEnv) (mt : MediaType) (src : FPath) (opts : Options) (fs : FS)
        (ext_option : Option String) (e : String) (m : MediaType) (i o : FPath) (x : String),
      formatFlag mt opts = some ext_option →
      src.extension = some e →
      Ev.codecCall m i o x ∈ (compress_file env mt src opts fs).events →
      x = effectiveOutputExt ext_option e ∧ o = src.with_extension x) := by
  refine ⟨fun o e => rfl, fun e => rfl, ?_⟩
  intro env mt src opts fs ext_option e m i o x hf he hmem
  simp only [compress_file, hf, he] at hmem
  by_cases hip : src = src.with_extension (effectiveOutputExt ext_option e)
  · rw [if_pos hip] at hmem
    by_cases hren : (env.renameAsideOk && (fs src).isSome) = true
    · rw [if_pos hren] at hmem
      rcases codecCall_mem_run _ _ _ _ _ _ _ _ _ _ _ _ _ _ hmem with h | ⟨-, -, ho, hx⟩
      · simp at h
      · exact ⟨hx, by rw [ho, hx]⟩
    · rw [if_neg hren] at hmem
      simp at hmem
  · rw [if_neg hip] at hmem
    rcases codecCall_mem_run _ _ _ _ _ _ _ _ _ _ _ _ _ _ hmem with h | ⟨-, -, ho, hx⟩
    · simp at h
    · exact ⟨hx, by rw [ho, hx]⟩

/-- Claim C8: `ThreadPool::new(size)` creates exactly `size` workers for
positive `size`, and fails (assertion panic on the invalid configuration)
for `size = 0`. -/
theorem thread_pool_new_size :
    (∀ size : Nat, 0 < size →
      ∃ s, ThreadPool.new size = .ok s ∧ s.alive.length = size)
    ∧ ThreadPool.new 0 = .error "assertion failed: size > 0" := by
  refine ⟨fun size h => ⟨mkPool size, ?_, ?_⟩, rfl⟩
  · rw [ThreadPool.new, if_pos h]
  · simp [mkPool]

/-- Claim C9: the audio/video adapter invokes the external tool with the
arguments `-i <input> <output> [flags] -y`, where the flags come from the
static per-extension table and are empty for absent extensions; it returns
success exactly when the exit code is 0 and otherwise a failure carrying
both captured streams verbatim. -/
theorem compress_ffmpeg_contract :
    (∀ i o e : String,
      (ffmpegArgs i o e).take 3 = ["-i", i, o]
        ∧ (ffmpegArgs i o e).getLast? = some "-y"
        ∧ (ffmpeg_settings.lookup e = none → ffmpegArgs i o e = ["-i", i, o, "-y"]))
    ∧ (∀ (run : List String → Option ProcOutput) (ip op : FPath) (e : String)
        (out : ProcOutput),
      run (ffmpegArgs (renderPath ip) (renderPath op) e) = some out →
      (compress_ffmpeg run ip op e = .ok () ↔ out.exitCode = some 0)
        ∧ (out.exitCode ≠ some 0 →
          compress_ffmpeg run ip op e
            = .error ("Failed FFMPEG execution!\nStdErr: " ++ out.stderr
                ++ "\nStdOut: " ++ out.stdout))) := by
  constructor
  · intro i o e
    refine ⟨rfl, ?_, ?_⟩
    · rw [ffmpegArgs, List.getLast?_concat]
    · intro h
      rw [ffmpegArgs, h]
      rfl
  · intro run ip op e out hrun
    have hc : compress_ffmpeg run ip op e
        = if out.success then .ok () else
            .error ("Failed FFMPEG execution!\nStdErr: " ++ out.stderr
              ++ "\nStdOut: " ++ out.stdout) := by
      rw [compress_ffmpeg, hrun]
    constructor
    · rw [hc]
      constructor
      · intro hok
        by_cases hs : out.success = true
        · rwa [ProcOutput.success, beq_iff_eq] at hs
        · rw [if_neg hs] at hok
          exact absurd hok (by simp)
      · intro hcode
        rw [if_pos (by rw [ProcOutput.success, beq_iff_eq]; exact hcode)]
    · intro hcode
      rw [hc, if_neg (by rw [ProcOutput.success, beq_iff_eq]; exact hcode)]

/-- Witness for the amended claim C3: a `webp` override is used verbatim,
the lowercased extension is used without an override, and the concrete
codec invocation for `A.JPG` without an override carries `jpg`. -/
theorem effective_output_ext_amended_witness :
    effectiveOutputExt (some "webp") "JPG" = "webp"
      ∧ effectiveOutputExt none "JPG" = lowerString "JPG"
      ∧ ("jpg" = effectiveOutputExt none "JPG"
          ∧ (⟨[], ["A", "jpg"]⟩ : FPath)
              = FPath.with_extension ⟨[], ["A", "JPG"]⟩ "jpg") := by
  refine ⟨effective_output_ext_amended.1 "webp" "JPG",
    effective_output_ext_amended.2.1 "JPG", ?_⟩
  exact effective_output_ext_amended.2.2
    ⟨true, true, true, true, 77, "x"⟩ .Image ⟨[], ["A", "JPG"]⟩
    ⟨some none, none, none, true, none, 8⟩
    (fun p => if p = ⟨[], ["A", "JPG"]⟩ then some 5 else none)
    none "JPG" .Image ⟨[], ["A", "JPG"]⟩ ⟨[], ["A", "jpg"]⟩ "jpg"
    rfl rfl (by decide)

/-- Witness for C8: a pool of 8 workers is created for size 8. -/
theorem thread_pool_new_size_witness :
    ∃ s, ThreadPool.new 8 = .ok s ∧ s.alive.length = 8 :=
  thread_pool_new_size.1 8 (by decide)

/-- Witness for C9: the argument list for a `wav` output has no extra
flags, and a run exiting with code 1 yields the diagnostic error. -/
theorem compress_ffmpeg_contract_witness :
    ((ffmpegArgs "in.wav" "out.wav" "wav").take 3 = ["-i", "in.wav", "out.wav"])
    ∧ (compress_ffmpeg (fun _ => some ⟨some 1, "so", "se"⟩)
          ⟨[], ["in", "wav"]⟩ ⟨[], ["out", "wav"]⟩ "wav"
        = .error ("Failed FFMPEG execution!\nStdErr: " ++ "se" ++ "\nStdOut: " ++ "so")) := by
  constructor
  · exact (compress_ffmpeg_contract.1 "in.wav" "out.wav" "wav").1
  · exact (compress_ffmpeg_contract.2 (fun _ => some ⟨some 1, "so", "se"⟩)
      ⟨[], ["in", "wav"]⟩ ⟨[], ["out", "wav"]⟩ "wav" ⟨some 1, "so", "se"⟩ rfl).2
      (by decide)

theorem mem_index_files (dirPath : List String) (depth : Nat)
    (extensions : List (String × MediaType)) (entries : List DirEntry) :
    ∀ mi : MediaIndex,
      mi ∈ index_files dirPath depth extensions entries
        ↔ (mi.path ∈ treeFiles dirPath entries
            ∧ ∃ e, mi.path.extension = some e
                ∧ extensions.lookup (lowerString e) = some mi.media_type) := by
  induction dirPath, depth, extensions, entries using index_files.induct with
  | case1 dp dep exts =>
    intro mi
    simp [index_files, treeFiles]
  | case2 dp dep exts fname rest ih =>
    intro mi
    simp only [index_files, treeFiles, List.mem_cons]
    cases hx : extSegs fname with
    | none =>
      simp only [List.nil_append, ih mi]
      constructor
      · rintro ⟨hp, he⟩
        exact ⟨Or.inr hp, he⟩
      · rintro ⟨hp | hp, e, hext, hlook⟩
        · rw [FPath.extension, hp] at hext
          rw [hx] at hext
          exact absurd hext (by simp)
        · exact ⟨hp, e, hext, hlook⟩
    | some e0 =>
      simp only [List.mem_append, ih mi]
      cases hl : List.lookup (lowerString e0) exts with
      | none =>
        simp only [List.not_mem_nil, false_or]
        constructor
        · rintro ⟨hp, he⟩
          exact ⟨Or.inr hp, he⟩
        · rintro ⟨hp | hp, e, hext, hlook⟩
          · rw [FPath.extension, hp] at hext
            rw [hx] at hext
            have he0 : e = e0 := (Option.some.inj hext).symm
            rw [he0] at hlook
            rw [hl] at hlook
            exact absurd hlook (by simp)
          · exact ⟨hp, e, hext, hlook⟩
      | some mt =>
        simp only [List.mem_singleton]
        constructor
        · rintro (hmi | ⟨hp, he⟩)
          · subst hmi
            exact ⟨Or.inl rfl, e0, by rw [FPath.extension]; exact hx, by rw [hl]⟩
          · exact ⟨Or.inr hp, he⟩
        · rintro ⟨hp | hp, e, hext, hlook⟩
          · left
            rw [FPath.extension, hp, hx] at hext
            have he0 : e = e0 := (Option.some.inj hext).symm
            rw [he0, hl] at hlook
            have hmt : mi.media_type = mt := (Option.some.inj hlook).symm
            cases mi with
            | mk p m =>
              simp only at hp hmt
              rw [hp, hmt]
          · exact Or.inr ⟨hp, e, hext, hlook⟩
  | case3 dp dep exts dname es rest ih1 ih2 =>
    intro mi
    simp only [index_files, treeFiles, List.mem_append, ih1 mi, ih2 mi]
    constructor
    · rintro (⟨hp, he⟩ | ⟨hp, he⟩)
      · exact ⟨Or.inl hp, he⟩
      · exact ⟨Or.inr hp, he⟩
    · rintro ⟨hp | hp, he⟩
      · exact Or.inl ⟨hp, he⟩
      · exact Or.inr ⟨hp, he⟩

/-- Claim C4: the indexer returns exactly the files of the recursive
descent whose lowercased extension appears in the extension mapping, each
tagged with the mapped media type (so files without or with an unmapped
extension are excluded), and the resulting list is sorted by media type. -/
theorem index_exactly_mapped_files_sorted (dirPath : List String)
    (extensions : List (String × MediaType)) (entries : List DirEntry) :
    (∀ mi : MediaIndex,
      mi ∈ index dirPath entries extensions
        ↔ (mi.path ∈ treeFiles dirPath entries
            ∧ ∃ e, mi.path.extension = some e
                ∧ extensions.lookup (lowerString e) = some mi.media_type))
    ∧ (index dirPath entries extensions).Pairwise
        (fun a b => mtRank a.media_type ≤ mtRank b.media_type) := by
  constructor
  · intro mi
    rw [index]
    rw [(List.mergeSort_perm (index_files dirPath 0 extensions entries)
      (fun a b => mtLe a.media_type b.media_type)).mem_iff]
    exact mem_index_files dirPath 0 extensions entries mi
  · have hs := @List.sorted_mergeSort MediaIndex
      (fun a b => mtLe a.media_type b.media_type)
      (fun a b c hab hbc => by
        simp only [mtLe, Nat.ble_eq] at hab hbc ⊢
        omega)
      (fun a b => by
        simp only [mtLe, Nat.ble_eq, Bool.or_eq_true]
        omega)
      (index_files dirPath 0 extensions entries)
    rw [index]
    refine hs.imp ?_
    intro a b h
    simpa [mtLe, Nat.ble_eq] using h

/-- Claim C10 helper: outcomes of the post-rename phase are never the
unwrap panic. -/
theorem run_outcome_ne_unwrap (env : FsEnv) (mt : MediaType)
    (sp ip op : FPath) (oext : String) (ow kf : Bool) (fs : FS) (evs : List Ev) :
    (compress_file_run env mt sp ip op oext ow kf fs evs).outcome
      ≠ .panicked "called Option::unwrap on a None value" := by
  rw [compress_file_run]
  split_ifs <;> try simp
  all_goals (split_ifs <;> simp)

/-- Claim C10: every index entry has a path with an extension (membership
in the extension mapping is checked before the entry is created), so the
unchecked `extension().unwrap()` accesses in `compress_file` never hit the
unwrap panic for a job built from an index entry. -/
theorem index_entry_unwrap_never_panics (dirPath : List String)
    (extensions : List (String × MediaType)) (entries : List DirEntry)
    (mi : MediaIndex) (hmem : mi ∈ index dirPath entries extensions) :
    mi.path.extension.isSome = true
      ∧ ∀ (env : FsEnv) (opts : Options) (fs : FS),
          (compress_file env mi.media_type mi.path opts fs).outcome
            ≠ .panicked "called Option::unwrap on a None value" := by
  have hmem' := ((List.mergeSort_perm (index_files dirPath 0 extensions entries)
      (fun a b => mtLe a.media_type b.media_type)).mem_iff).mp (by rwa [index] at hmem)
  obtain ⟨-, e, hext, -⟩ := (mem_index_files dirPath 0 extensions entries mi).mp hmem'
  refine ⟨by rw [hext]; rfl, ?_⟩
  intro env opts fs
  cases hff : formatFlag mi.media_type opts with
  | none =>
    simp only [compress_file, hff]
    intro hc
    exact absurd hc (by simp)
  | some eo =>
    simp only [compress_file, hff, hext]
    by_cases hip : mi.path = mi.path.with_extension (effectiveOutputExt eo e)
    · rw [if_pos hip]
      by_cases hren : (env.renameAsideOk && (fs mi.path).isSome) = true
      · rw [if_pos hren]
        exact run_outcome_ne_unwrap _ _ _ _ _ _ _ _ _ _
      · rw [if_neg hren]
        intro hc
        simp only [Outcome.panicked.injEq] at hc
        revert hc
        decide
    · rw [if_neg hip]
      exact run_outcome_ne_unwrap _ _ _ _ _ _ _ _ _ _

/-- Witness for C10: the entry indexed for `a.jpg` has an extension and its
job never ends in the unwrap panic on a concrete environment. -/
theorem index_entry_unwrap_never_panics_witness :
    (⟨⟨[], ["a", "jpg"]⟩, .Image⟩ : MediaIndex).path.extension.isSome = true
      ∧ (compress_file ⟨true, true, true, true, 77, "x"⟩ .Image ⟨[], ["a", "jpg"]⟩
          ⟨some none, none, none, false, none, 8⟩ (fun _ => none)).outcome
        ≠ .panicked "called Option::unwrap on a None value" := by
  have hmem : (⟨⟨[], ["a", "jpg"]⟩, .Image⟩ : MediaIndex)
      ∈ index [] [.file ["a", "jpg"]] extensionTable := by
    rw [index, (List.mergeSort_perm _ _).mem_iff]
    refine (mem_index_files [] 0 extensionTable [.file ["a", "jpg"]] _).mpr
      ⟨by simp [treeFiles], "jpg", by decide, by decide⟩
  have h := index_entry_unwrap_never_panics [] extensionTable
    [.file ["a", "jpg"]] ⟨⟨[], ["a", "jpg"]⟩, .Image⟩ hmem
  exact ⟨h.1, h.2 ⟨true, true, true, true, 77, "x"⟩
    ⟨some none, none, none, false, none, 8⟩ (fun _ => none)⟩

/-! ## Worker pool lemmas and theorems -/

theorem foldl_execute (l : List Nat) :
    ∀ s : PoolState, l.foldl PoolState.execute s
      = ⟨s.queue ++ l.map Msg.newJob, s.alive, s.executed⟩ := by
  induction l with
  | nil => intro s; simp
  | cons x xs ih =>
    intro s
    rw [List.foldl_cons, ih]
    simp [PoolState.execute]

theorem submitAll_dropSignal (K N : Nat) :
    (submitAll (mkPool N) K).dropSignal
      = ⟨(List.range K).map Msg.newJob ++ List.replicate N Msg.terminate,
          List.replicate N true, []⟩ := by
  rw [submitAll, foldl_execute]
  simp [mkPool, PoolState.dropSignal]

theorem deadCount_replicate_true (n : Nat) :
    deadCount (List.replicate n true) = 0 := by
  induction n with
  | zero => rfl
  | succ k ih => rw [List.replicate_succ, deadCount, List.countP_cons] at *; simpa using ih

theorem deadCount_set (a : List Bool) :
    ∀ w, a.get? w = some true → deadCount (a.set w false) = deadCount a + 1 := by
  induction a with
  | nil => intro w h; simp at h
  | cons b bs ih =>
    intro w h
    cases w with
    | zero =>
      have hb : b = true := by simpa using h
      subst hb
      simp [deadCount, List.countP_cons]
    | succ k =>
      have hk : bs.get? k = some true := by simpa using h
      simp only [List.set_cons_succ, deadCount, List.countP_cons] at *
      rw [ih k hk]
      omega

theorem beq_newJob_terminate (j : Nat) :
    (Msg.newJob j == Msg.terminate) = false := rfl

theorem termCount_map_newJob (l : List Nat) :
    termCount (l.map Msg.newJob) = 0 := by
  rw [termCount, List.countP_eq_zero]
  intro m hm
  obtain ⟨j, -, rfl⟩ := List.mem_map.mp hm
  rw [beq_newJob_terminate]
  simp

theorem termCount_replicate (n : Nat) :
    termCount (List.replicate n Msg.terminate) = n := by
  have h : ∀ m ∈ List.replicate n Msg.terminate, (m == Msg.terminate) = true := by
    intro m hm
    rw [List.eq_of_mem_replicate hm]
    rfl
  rw [termCount, List.countP_eq_length.mpr h, List.length_replicate]

theorem jobsOf_map_newJob (l : List Nat) : jobsOf (l.map Msg.newJob) = l := by
  induction l with
  | nil => rfl
  | cons x xs ih => rw [List.map_cons, jobsOf, List.filterMap_cons] at *; simpa using ih

theorem jobsOf_replicate_terminate (n : Nat) :
    jobsOf (List.replicate n Msg.terminate) = [] := by
  induction n with
  | zero => rfl
  | succ k ih => rw [List.replicate_succ, jobsOf, List.filterMap_cons] at *; simpa using ih

theorem poolInv_step (initq : List Msg) (N : Nat) (s s' : PoolState)
    (h : PoolInv initq N s) (hs : PoolStep s s') : PoolInv initq N s' := by
  obtain ⟨pre, hq, hex, hdead, hlen⟩ := h
  cases hs with
  | job w j rest hw hqq =>
    refine ⟨pre ++ [Msg.newJob j], ?_, ?_, ?_, hlen⟩
    · rw [hq, hqq]; simp
    · show (s.executed ++ [(w, j)]).map Prod.snd = jobsOf (pre ++ [Msg.newJob j])
      rw [List.map_append, hex, jobsOf, jobsOf, List.filterMap_append]
      rfl
    · show deadCount s.alive = termCount (pre ++ [Msg.newJob j])
      rw [hdead, termCount, termCount, List.countP_append]
      have hz : List.countP (fun m => m == Msg.terminate) [Msg.newJob j] = 0 := by
        rw [List.countP_cons, beq_newJob_terminate]
        simp
      rw [hz]
      omega
  | term w rest hw hqq =>
    refine ⟨pre ++ [Msg.terminate], ?_, ?_, ?_, ?_⟩
    · rw [hq, hqq]; simp
    · show s.executed.map Prod.snd = jobsOf (pre ++ [Msg.terminate])
      rw [hex, jobsOf, jobsOf, List.filterMap_append]
      simp
    · show deadCount (s.alive.set w false) = termCount (pre ++ [Msg.terminate])
      rw [deadCount_set s.alive w hw, hdead, termCount, termCount, List.countP_append]
      rfl
    · show (s.alive.set w false).length = N
      rw [List.length_set]; exact hlen

theorem poolInv_reaches (initq : List Msg) (N : Nat) (s0 s : PoolState)
    (h0 : PoolInv initq N s0) (h : PoolReaches s0 s) : PoolInv initq N s := by
  induction h with
  | refl => exact h0
  | tail hab hbc ih => exact poolInv_step initq N _ _ ih hbc

/-- Claim C2: submitting `K` jobs to a pool of `N ≥ 1` workers and then
shutting it down (one terminate message per worker, then join) results in
exactly `K` job executions — each submitted job executed by exactly one
worker, none dropped — by the time every worker has exited, which is when
the join in `Drop` returns; the drained queue is empty, so no worker
dequeues anything after its terminate message. -/
theorem pool_drain_executes_all_jobs (K N : Nat) (s : PoolState)
    (hN : 0 < N)
    (hreach : PoolReaches ((submitAll (mkPool N) K).dropSignal) s)
    (hdead : s.allDead) :
    s.executed.map Prod.snd = List.range K
      ∧ s.queue = []
      ∧ ∀ j ∈ List.range K, (s.executed.filter (fun p => p.2 == j)).length = 1 := by
  have hinit : (submitAll (mkPool N) K).dropSignal
      = ⟨(List.range K).map Msg.newJob ++ List.replicate N Msg.terminate,
          List.replicate N true, []⟩ := submitAll_dropSignal K N
  set initq := (List.range K).map Msg.newJob ++ List.replicate N Msg.terminate with hinitq
  have h0 : PoolInv initq N ⟨initq, List.replicate N true, []⟩ :=
    ⟨[], by simp, by simp [jobsOf], by simp [deadCount_replicate_true, termCount], by simp⟩
  have hinv : PoolInv initq N s := poolInv_reaches initq N _ s (hinit ▸ h0) hreach
  obtain ⟨pre, hq, hex, hdc, hlen⟩ := hinv
  -- all workers dead: the consumed prefix holds all N terminate messages
  have hdeadN : deadCount s.alive = N := by
    rw [deadCount, List.countP_eq_length.mpr, hlen]
    intro b hb
    rw [hdead b hb]
    rfl
  have htermpre : termCount pre = N := by rw [← hdc, hdeadN]
  have hterminit : termCount initq = N := by
    rw [hinitq, termCount, List.countP_append, ← termCount, ← termCount,
      termCount_map_newJob, termCount_replicate]
    omega
  have htermq : termCount s.queue = 0 := by
    have h := congrArg termCount hq
    rw [hterminit] at h
    rw [termCount, List.countP_append, ← termCount, ← termCount, htermpre] at h
    omega
  -- the queue must be empty: otherwise its last element is a terminate
  have hqnil : s.queue = [] := by
    by_contra hne
    have hlast : s.queue.getLast? = some (s.queue.getLast hne) :=
      List.getLast?_eq_getLast s.queue hne
    have hlastinit : initq.getLast? = some Msg.terminate := by
      obtain ⟨n, rfl⟩ := Nat.exists_eq_add_of_lt hN
      rw [hinitq, List.replicate_succ']
      rw [show (List.range K).map Msg.newJob ++ (List.replicate (0 + n) Msg.terminate ++ [Msg.terminate])
          = ((List.range K).map Msg.newJob ++ List.replicate (0 + n) Msg.terminate) ++ [Msg.terminate] by simp]
      exact List.getLast?_concat _
    have hlast2 : initq.getLast? = some (s.queue.getLast hne) := by
      rw [hq, List.getLast?_append, hlast]
      rfl
    have hterm_mem : Msg.terminate ∈ s.queue := by
      have heq : s.queue.getLast hne = Msg.terminate := by
        rw [hlast2] at hlastinit
        exact Option.some.inj hlastinit
      rw [← heq]
      exact List.getLast_mem hne
    have := List.countP_eq_zero.mp htermq Msg.terminate hterm_mem
    simp at this
  rw [hqnil, List.append_nil] at hq
  have hexec : s.executed.map Prod.snd = List.range K := by
    rw [hex, ← hq, hinitq, jobsOf, List.filterMap_append, ← jobsOf, ← jobsOf,
      jobsOf_map_newJob, jobsOf_replicate_terminate, List.append_nil]
  refine ⟨hexec, hqnil, ?_⟩
  intro j hj
  rw [← List.countP_eq_length_filter]
  have hcp : List.countP (fun p => p.2 == j) s.executed
      = List.countP (fun x => x == j) (s.executed.map Prod.snd) := by
    rw [List.countP_map]
    rfl
  rw [hcp, hexec]
  have : List.countP (fun x => x == j) (List.range K) = List.count j (List.range K) := rfl
  rw [this, List.count_eq_one_of_mem (List.nodup_range K) hj]

/-- Witness for C2: with one worker and one submitted job, the completed
run executed exactly job 0 and drained the queue. -/
theorem pool_drain_executes_all_jobs_witness :
    (⟨[], [false], [(0, 0)]⟩ : PoolState).executed.map Prod.snd = List.range 1
      ∧ (⟨[], [false], [(0, 0)]⟩ : PoolState).queue = [] := by
  have h1 : PoolStep ⟨[Msg.newJob 0, Msg.terminate], [true], []⟩
      ⟨[Msg.terminate], [true], [(0, 0)]⟩ :=
    PoolStep.job _ 0 0 [Msg.terminate] rfl rfl
  have h2 : PoolStep ⟨[Msg.terminate], [true], [(0, 0)]⟩
      ⟨[], [false], [(0, 0)]⟩ :=
    PoolStep.term _ 0 [] rfl rfl
  have hreach : PoolReaches ((submitAll (mkPool 1) 1).dropSignal)
      ⟨[], [false], [(0, 0)]⟩ := by
    have hinit : (submitAll (mkPool 1) 1).dropSignal
        = ⟨[Msg.newJob 0, Msg.terminate], [true], []⟩ := rfl
    rw [PoolReaches, hinit]
    exact Relation.ReflTransGen.tail (Relation.ReflTransGen.tail .refl h1) h2
  have h := pool_drain_executes_all_jobs 1 1 ⟨[], [false], [(0, 0)]⟩
    (by decide) hreach (by intro b hb; simpa using hb)
  exact ⟨h.1, h.2.1⟩
